import Mathlib

/-!
Verification development for the pyMOSF pipeline algebra
(`pyMOSF/core/pipelines.py`, `pyMOSF/core/__decorators__.py`,
`pyMOSF/config/configs.py`).

The Python code is shallowly embedded: Payloads (the `Dict` class) become
association lists with unique keys, processes become a deep term algebra
`Proc`, and every fallible Python operation returns `Except PyError`.
-/

namespace MOSF

/-- Values stored in a Payload.  `vnone` models Python `None`, which is also
what `Dict.__missing__` returns for an absent key (configs.py, lines 28-32). -/
inductive Value where
  | vnone : Value
  | vint : Int → Value
  | vstr : String → Value
  | vbool : Bool → Value
deriving DecidableEq, Repr

/-- A Payload is the `Dict` mapping threaded between stages: an ordered list
of (key, value) entries.  Payloads built by the embedded operations always
have pairwise-distinct keys, mirroring Python dict semantics. -/
abbrev Payload := List (String × Value)

/-- `k in d` membership test of a Python dict. -/
def hasKey (p : Payload) (k : String) : Bool :=
  p.any (fun e => e.1 == k)

/-- `d[k]` on the pyMOSF `Dict`: the stored value when the key is present,
and `None` when it is absent, because `Dict.__missing__` returns `None`
instead of raising `KeyError` (configs.py, lines 28-32). -/
def getD (p : Payload) (k : String) : Value :=
  match p.find? (fun e => e.1 == k) with
  | some e => e.2
  | none => Value.vnone

/-- `d[k] = v` on a Python dict: an existing key keeps its position and gets
the new value; a new key is appended at the end. -/
def setKey (p : Payload) (k : String) (v : Value) : Payload :=
  if hasKey p k then p.map (fun e => if e.1 == k then (k, v) else e)
  else p ++ [(k, v)]

/-- `a |= b` on Python dicts: every entry of `b` is written into `a` in
order, so on a key conflict `b`'s value wins (last write wins). -/
def union (a b : Payload) : Payload :=
  b.foldl (fun acc e => setKey acc e.1 e.2) a

/-- Errors the embedded Python code can raise. -/
inductive PyError where
  /-- A `TypeError` from calling a stage with required named parameters
  absent; carries the number of missing parameters.  CPython's message is
  "missing 1 required keyword-only argument ..." exactly when the count
  is 1, which is the string `ImageProcessingPipeline.process` matches on
  (pipelines.py, lines 377-380). -/
  | typeError : Nat → PyError
  /-- `IncompatibleArgsException` (pipelines.py, lines 14-17, 385-387).
  The message is
  "The process [failing] received incompatible payload from the previous
  process [previous]."; we carry the two interpolated names: first the
  failing stage type name, then the preceding stage name (or the
  first-stage marker). -/
  | incompatibleArgs : String → String → PyError
  /-- `KeyError` from `dict.pop` on an absent key (pipelines.py, line 194). -/
  | keyError : String → PyError
  /-- `ValueError` from a construction operator; carries an abbreviation of
  the message. -/
  | valueError : String → PyError
  /-- `AssertionError` from `ProcessFork.__init__`s
  `assert len(processes) > 1` (pipelines.py, line 206). -/
  | assertionError : String → PyError
  /-- `IndexError` from indexing the branch tuple out of range. -/
  | indexError : PyError
  /-- Any other exception (e.g. a `TypeError` whose message is not a
  missing-required-argument message). -/
  | otherError : PyError
deriving DecidableEq, Repr

/-- `dict.pop(k)`: returns the value and the dict without the key, raising
`KeyError` when the key is absent. -/
def popKey (p : Payload) (k : String) : Except PyError (Value × Payload) :=
  if hasKey p k then .ok (getD p k, p.filter (fun e => e.1 != k))
  else .error (.keyError k)

/-- A concrete stage function: the embedding of one user-defined `Process`
subclass / `ProcessLogic` callback.  `name` is Python's
`type(obj).__name__`; `required` lists the required named parameters of its
`__call__`; `run` is its body, which receives the whole keyword payload
(the declared names plus the `**kwargs` rest) and returns its output
Payload. -/
structure StageFn where
  name : String
  required : List String
  run : Payload → Payload

/-- The rename table of a `ProcessJoined`: the entries of the Python dict
`kwargs_mapping` in insertion order.  Each entry is a branch index paired
with the ordered (old key, new key) pairs for that branch.  Python dict
keys are unique, so well-formed tables have pairwise-distinct indices. -/
abbrev RenameTable := List (Nat × List (String × String))

/-- The term algebra of composable objects in pipelines.py.
`leaf` is a concrete `Process`/`ProcessLogic`; `fork` is `ProcessFork`
(its branch list); `joined` is `ProcessJoined` (wrapped process plus rename
table); `pipeline` is `ImageProcessingPipeline` (its stage list).
`ImageProcessingPipeline` is the only `AbstractPipeline`; all other
constructors are `AbstractProcess` subclasses. -/
inductive Proc where
  | leaf : StageFn → Proc
  | fork : List Proc → Proc
  | joined : Proc → RenameTable → Proc
  | pipeline : List Proc → Proc

/-- Is the object a `ProcessFork`? (`isinstance(x, ProcessFork)`) -/
def isFork : Proc → Bool
  | .fork _ => true
  | _ => false

/-- Is the object an `AbstractPipeline`?
(`issubclass(type(x), AbstractPipeline)`) -/
def isPipeline : Proc → Bool
  | .pipeline _ => true
  | _ => false

/-- Python's `type(obj).__name__` for the embedded objects. -/
def nameOf : Proc → String
  | .leaf s => s.name
  | .fork _ => "ProcessFork"
  | .joined _ _ => "ProcessJoined"
  | .pipeline _ => "ImageProcessingPipeline"

/-- The `>>` chain operator.  Dispatch follows Python:
`ImageProcessingPipeline.__rshift__` (pipelines.py, lines 266-303) when the
left operand is a pipeline, `ProcessFork.__rshift__` (lines 219-223) when
it is a fork (which first wraps itself in `ProcessJoined(self)` with the
empty rename table), and `AbstractProcess.__rshift__` (lines 61-98)
otherwise.  A `ProcessFork` on the right is wrapped in a `ProcessJoined`
before being appended.  Every `Proc` is an acceptable right operand, so the
`ValueError` branches of the source are unreachable in the model (they fire
only on objects outside the algebra, e.g. raw strings). -/
def rshift (self other : Proc) : Proc :=
  match self with
  | .pipeline ps =>
    match other with
    | .fork _ => .pipeline (ps ++ [.joined other []])
    | .pipeline qs => .pipeline (ps ++ qs)
    | _ => .pipeline (ps ++ [other])
  | .fork _ =>
    -- ProcessFork.__rshift__: ProcessJoined(self) >> other, and the joined
    -- wrapper is a plain AbstractProcess, so AbstractProcess.__rshift__
    -- applies to it.
    match other with
    | .fork _ => .pipeline [.joined self [], .joined other []]
    | .pipeline qs => .pipeline (.joined self [] :: qs)
    | _ => .pipeline [.joined self [], other]
  | _ =>
    match other with
    | .fork _ => .pipeline [self, .joined other []]
    | .pipeline qs => .pipeline (self :: qs)
    | _ => .pipeline [self, other]

/-- The right operand of the `*` fork operator: a Python `int` or any
object of the algebra. -/
inductive Operand where
  | int : Int → Operand
  | proc : Proc → Operand

/-- `ProcessFork(processes)` (pipelines.py, lines 204-207):
`assert len(processes) > 1`. -/
def mkFork (bs : List Proc) : Except PyError Proc :=
  if bs.length > 1 then .ok (.fork bs)
  else .error (.assertionError "The processes must be more than one.")

/-- The `*` fork operator.  `ImageProcessingPipeline.__mul__`
(pipelines.py, lines 305-347) when the left operand is a pipeline,
`AbstractProcess.__mul__` (lines 100-147) otherwise (`ProcessFork` does not
override `__mul__`).  An `int` operand replicates the left operand
(`[self] * n`, so a non-positive `n` yields the empty list) and builds a
`ProcessFork`, whose constructor asserts more than one branch; an
already-forked left operand rejects the `int` case; a fork operand is
flattened by list concatenation; any other algebra object gives a 2-branch
fork. -/
def mul (self : Proc) (other : Operand) : Except PyError Proc :=
  match self with
  | .pipeline _ =>
    match other with
    | .int n => mkFork (List.replicate n.toNat self)
    | .proc (.fork _) =>
      .error (.valueError "ProcessFork cannot be multiplied from LHS of a ImageProcessingPipeline.")
    | .proc p => mkFork [self, p]
  | _ =>
    match other with
    | .int n =>
      match self with
      | .fork _ =>
        .error (.valueError "The ProcessFork has already forked (cannot be multiplied).")
      | _ => mkFork (List.replicate n.toNat self)
    | .proc (.fork obs) =>
      match self with
      | .fork sbs => mkFork (sbs ++ obs)
      | _ => mkFork (self :: obs)
    | .proc p => mkFork [self, p]

/-- The result of calling an object of the algebra: a Payload for processes,
joins and pipelines, a tuple of Payloads for a `ProcessFork`. -/
inductive CallResult where
  | payload : Payload → CallResult
  | tupleRes : List Payload → CallResult
deriving DecidableEq, Repr

/-- The rename loop body of `ProcessJoined.__call__` for one branch
(pipelines.py, lines 193-194): for every (old key, new key) pair in order,
`ret[new_key] = ret.pop(old_key)` — pop the old key (raising `KeyError`
when absent) and write its value under the new key. -/
def renameKeys (ret : Payload) : List (String × String) → Except PyError Payload
  | [] => .ok ret
  | (oldKey, newKey) :: rest =>
    match popKey ret oldKey with
    | .error e => .error e
    | .ok (v, ret2) => renameKeys (setKey ret2 newKey v) rest

/-- The outer rename loop of `ProcessJoined.__call__` (pipelines.py,
lines 191-194): for each (index, pairs) entry of the rename table in
insertion order, rename inside the branch Payload at that index.  The
mutation of `tuple_return[index]` in place is modelled by updating the list
at that index.  Python tuple indexing out of range raises `IndexError`
(negative indices do not arise from well-formed tables and are not
modelled). -/
def applyMapping (ts : List Payload) : RenameTable → Except PyError (List Payload)
  | [] => .ok ts
  | (i, names) :: rest =>
    match ts.get? i with
    | none => .error .indexError
    | some ret =>
      match renameKeys ret names with
      | .error e => .error e
      | .ok ret2 => applyMapping (ts.set i ret2) rest

/-- The union loop of `ProcessJoined.__call__` (pipelines.py,
lines 197-199): `new_kwargs = tuple_return[0]` (raising `IndexError` for an
empty tuple, which cannot arise from a well-formed fork) then
`new_kwargs |= d` for the remaining branches, so a later branch's keys win. -/
def reduceUnion : List Payload → Except PyError Payload
  | [] => .error .indexError
  | h :: t => .ok (t.foldl union h)

/-- The literal first-stage marker of `ImageProcessingPipeline.process`
(pipelines.py, line 384).  Note the source spells it "pipline". -/
def pipelineInputMarker : String := "(input of the pipline)"

mutual

/-- Calling an object of the algebra with keyword payload `p`
(`obj(**p)`).

* `leaf`: calling the stage function; CPython raises `TypeError` carrying
  the number of missing required named parameters when any are absent,
  otherwise the body runs on the full payload.
* `fork`: `ProcessFork.__call__` (pipelines.py, lines 215-217) calls every
  branch on the (independently unpacked) payload and tuples the results.
* `joined`: `ProcessJoined.__call__` (pipelines.py, lines 186-200): call
  the wrapped fork, apply the rename table, reduce by union.  A wrapped
  object that is not a fork returns a `Dict`, and the subsequent integer
  indexing / union of non-dict values raises; this out-of-contract case is
  modelled as `otherError`.
* `pipeline`: `ImageProcessingPipeline.process` (pipelines.py,
  lines 349-390) via `runStages`, starting from the first-stage marker.
-/
def callProc : Proc → Payload → Except PyError CallResult
  | .leaf s, p =>
    let missing := s.required.filter (fun k => !(hasKey p k))
    if missing.length == 0 then .ok (.payload (s.run p))
    else .error (.typeError missing.length)
  | .fork bs, p =>
    match callBranches bs p with
    | .error e => .error e
    | .ok ds => .ok (.tupleRes ds)
  | .joined f m, p =>
    match callProc f p with
    | .error e => .error e
    | .ok (.payload _) => .error .otherError
    | .ok (.tupleRes ts) =>
      match applyMapping ts m with
      | .error e => .error e
      | .ok ts2 =>
        match reduceUnion ts2 with
        | .error e => .error e
        | .ok d => .ok (.payload d)
  | .pipeline ps, p =>
    match runStages ps pipelineInputMarker p with
    | .error e => .error e
    | .ok d => .ok (.payload d)

/-- The generator `tuple(p(**kwargs) for p in self.processes)` of
`ProcessFork.__call__`: branches are called in order; a branch's exception
fails the whole fork.  A branch returning a tuple (a bare nested fork,
which the construction operators never produce) would make the joined
reduction fail on non-dict values; modelled as `otherError`. -/
def callBranches : List Proc → Payload → Except PyError (List Payload)
  | [], _ => .ok []
  | b :: rest, p =>
    match callProc b p with
    | .error e => .error e
    | .ok (.tupleRes _) => .error .otherError
    | .ok (.payload d) =>
      match callBranches rest p with
      | .error e => .error e
      | .ok ds => .ok (d :: ds)

/-- The stage loop of `ImageProcessingPipeline.process` (pipelines.py,
lines 364-390) with the name of the previous stage threaded through
(initially the first-stage marker, then `type(previous).__name__`, exactly
as the `index`-based lookup in the `except` clause computes it).  A
`TypeError` whose missing count is 1 — the only case whose message contains
"missing 1 required ... argument", the string the handler matches — is
converted to `IncompatibleArgsException` naming the failing stage and the
previous one; every other exception propagates unmodified.  A stage
returning a tuple would make `payload_kwargs |= ret` raise a `TypeError`
whose message the handler does not match; modelled as `otherError`.
Each successful stage's return is unioned into the accumulator, the
stage's keys winning. -/
def runStages : List Proc → String → Payload → Except PyError Payload
  | [], _, acc => .ok acc
  | s :: rest, prev, acc =>
    match callProc s acc with
    | .error (.typeError 1) => .error (.incompatibleArgs (nameOf s) prev)
    | .error e => .error e
    | .ok (.tupleRes _) => .error .otherError
    | .ok (.payload ret) => runStages rest (nameOf s) (union acc ret)

end

/-!
### The `processLogicProperty` decorator
(`__decorators__.py`, lines 124-163, and `ProcessLogicProperty`,
pipelines.py, lines 401-407.)

`processLogicProperty(func)` runs once, at class-definition time, and
creates a single `ProcessLogicProperty(func)` object `p_logic` with
`caller_class = None`.  The property getter `logic(caller)` executes on
every attribute access: it assigns `p_logic.caller_class = caller` and
returns the same shared `p_logic` object.  `ProcessLogicProperty.__call__`
invokes `self.logic_callback(self.caller_class, **kwargs)`.

The shared object's mutable state is embedded as a structure value; an
access returns the updated state, which *is* the state of the one object
every access returns. -/

/-- The state of the single shared `ProcessLogicProperty` object created by
the decorator.  `Owner` is the type of owning instances;
`logic_callback` is the wrapped unbound method, receiving the stored
`caller_class` (Python `None` at decoration time) as its first argument. -/
structure ProcessLogicPropertyState (Owner : Type) where
  logic_callback : Option Owner → Payload → Payload
  caller_class : Option Owner

/-- Decoration time: `p_logic = ProcessLogicProperty(func)` with
`caller_class = None` (`__decorators__.py`, line 156; pipelines.py,
lines 402-404). -/
def mkLogicProperty {Owner : Type} (cb : Option Owner → Payload → Payload) :
    ProcessLogicPropertyState Owner :=
  ⟨cb, none⟩

/-- One attribute access on owner `o`: the getter `logic(caller)` sets
`p_logic.caller_class = caller` and returns the shared object
(`__decorators__.py`, lines 158-160). -/
def accessLogicProperty {Owner : Type} (s : ProcessLogicPropertyState Owner)
    (o : Owner) : ProcessLogicPropertyState Owner :=
  ⟨s.logic_callback, some o⟩

/-- `ProcessLogicProperty.__call__`: invoke the wrapped method with the
currently stored owner as the bound instance (pipelines.py,
lines 406-407). -/
def invokeLogicProperty {Owner : Type} (s : ProcessLogicPropertyState Owner)
    (p : Payload) : Payload :=
  s.logic_callback s.caller_class p

/-!
### The shared default stage list of `ImageProcessingPipeline()`

`ImageProcessingPipeline.__init__(self, processes=[])` (pipelines.py,
lines 263-264) has a mutable default argument: the list `[]` is created
once, when the `def` is evaluated, and every construction without an
explicit argument binds `self.processes` to that same list object
(`AbstractPipeline.__init__`, lines 24-25, stores it without copying).
`append_process` (lines 27-28) mutates `self.processes` in place.  The
chain operators always pass an explicit, freshly built list.

The embedding separates the two aliasing classes: a pipeline whose stage
list is the module-level default object (`defaultRef`), and one holding
its own list (`ownRef`).  The default list's contents live in a heap. -/

/-- Which stage-list object an `ImageProcessingPipeline` holds. -/
inductive PipelineStagesRef where
  /-- Constructed as `ImageProcessingPipeline()`: `self.processes` is the
  shared default list object. -/
  | defaultRef : PipelineStagesRef
  /-- Constructed as `ImageProcessingPipeline(ps)` with an explicit list,
  as the chain operators do: `self.processes` is that own list. -/
  | ownRef : List Proc → PipelineStagesRef

/-- The mutable contents of the module-level default list. -/
structure PipelineHeap where
  defaultList : List Proc

/-- The default list is empty when the module is loaded. -/
def initialHeap : PipelineHeap := ⟨[]⟩

/-- Reading `self.processes` under the current heap. -/
def stagesOf (h : PipelineHeap) : PipelineStagesRef → List Proc
  | .defaultRef => h.defaultList
  | .ownRef ps => ps

/-- `append_process` (pipelines.py, lines 27-28): `self.processes.append(p)`
mutates the referenced list, i.e. the shared default list when the pipeline
was constructed without arguments. -/
def append_process (h : PipelineHeap) (r : PipelineStagesRef) (x : Proc) :
    PipelineHeap × PipelineStagesRef :=
  match r with
  | .defaultRef => (⟨h.defaultList ++ [x]⟩, .defaultRef)
  | .ownRef ps => (h, .ownRef (ps ++ [x]))

/-- Spec-side definition, following the spec's words for the Joined
reduction: the branch outputs are reduced "by left-to-right union in which
a later branch's keys override an earlier branch's on conflict (highest-
index branch wins ties)" — so a key's final value comes from the last
branch that contains it, and is absent (`None` on lookup) when no branch
contains it. -/
def lastWins (ts : List Payload) (k : String) : Value :=
  match ts with
  | [] => Value.vnone
  | t :: rest =>
    if rest.any (fun d => hasKey d k) then lastWins rest k
    else getD t k

theorem hasKey_eq_true_iff (p : Payload) (k : String) :
    hasKey p k = true ↔ ∃ e ∈ p, e.1 = k := by
  simp [hasKey]

theorem hasKey_eq_false_iff (p : Payload) (k : String) :
    hasKey p k = false ↔ ∀ e ∈ p, e.1 ≠ k := by
  simp [hasKey]

theorem getD_cons (e : String × Value) (rest : Payload) (k : String) :
    getD (e :: rest) k = if e.1 == k then e.2 else getD rest k := by
  by_cases h : e.1 = k
  · simp [getD, List.find?_cons, h]
  · have hb : (e.1 == k) = false := by simp [h]
    simp [getD, List.find?_cons, hb]

theorem getD_map_ne (p : Payload) (k q : String) (v : Value)
    (h : k ≠ q) :
    getD (p.map (fun e => if e.1 == k then (k, v) else e)) q = getD p q := by
  induction p with
  | nil => rfl
  | cons e rest ih =>
    by_cases he : e.1 = k
    · have hb : (e.1 == k) = true := by simp [he]
      have h2 : (e.1 == q) = false := by simp [he, h]
      have h1 : (k == q) = false := by simp [h]
      simp only [List.map_cons, hb, if_true]
      rw [getD_cons, getD_cons]
      simp only [h1, h2, Bool.false_eq_true, if_false]
      exact ih
    · have hb : (e.1 == k) = false := by simp [he]
      simp only [List.map_cons, hb, Bool.false_eq_true, if_false]
      rw [getD_cons, getD_cons, ih]

theorem getD_map_eq (p : Payload) (k : String) (v : Value) :
    hasKey p k = true →
    getD (p.map (fun e => if e.1 == k then (k, v) else e)) k = v := by
  induction p with
  | nil => intro h; simp [hasKey] at h
  | cons e rest ih =>
    intro h
    by_cases he : e.1 = k
    · have hb : (e.1 == k) = true := by simp [he]
      simp only [List.map_cons, hb, if_true]
      rw [getD_cons]
      simp
    · have hb : (e.1 == k) = false := by simp [he]
      have hr : hasKey rest k = true := by
        simp only [hasKey, List.any_cons, hb, Bool.false_or] at h
        exact h
      simp only [List.map_cons, hb, Bool.false_eq_true, if_false]
      rw [getD_cons]
      simp only [hb, Bool.false_eq_true, if_false]
      exact ih hr

theorem getD_append_pair (p : Payload) (k q : String) (v : Value) :
    hasKey p k = false →
    getD (p ++ [(k, v)]) q = if k == q then v else getD p q := by
  induction p with
  | nil =>
    intro _
    by_cases hq : k = q <;> simp [getD_cons, getD, hq]
  | cons e rest ih =>
    intro h
    have he : e.1 ≠ k :=
      (hasKey_eq_false_iff (e :: rest) k).mp h e (List.mem_cons_self e rest)
    have hr : hasKey rest k = false := by
      rw [hasKey_eq_false_iff]
      exact fun x hx => (hasKey_eq_false_iff (e :: rest) k).mp h x (List.mem_cons_of_mem e hx)
    rw [List.cons_append, getD_cons, getD_cons, ih hr]
    by_cases hq : e.1 = q
    · have h1 : (e.1 == q) = true := by simp [hq]
      have h2 : (k == q) = false := by
        simp only [beq_eq_false_iff_ne, ne_eq]
        intro hkq
        exact he (by rw [hq, hkq])
      simp [h1, h2]
    · have h1 : (e.1 == q) = false := by simp [hq]
      simp [h1]

theorem getD_setKey (p : Payload) (k q : String) (v : Value) :
    getD (setKey p k v) q = if k == q then v else getD p q := by
  cases hk : hasKey p k
  · simp only [setKey, hk, Bool.false_eq_true, if_false]
    exact getD_append_pair p k q v hk
  · simp only [setKey, hk, if_true]
    by_cases hq : k = q
    · subst hq
      rw [getD_map_eq p k v hk]
      simp
    · have h1 : (k == q) = false := by simp [hq]
      simp only [h1, Bool.false_eq_true, if_false]
      exact getD_map_ne p k q v hq

theorem hasKey_cons (e : String × Value) (rest : Payload) (k : String) :
    hasKey (e :: rest) k = ((e.1 == k) || hasKey rest k) := by
  simp [hasKey]

theorem union_nil (a : Payload) : union a [] = a := rfl

theorem union_cons (a : Payload) (e : String × Value) (rest : Payload) :
    union a (e :: rest) = union (setKey a e.1 e.2) rest := rfl

/-- Looking a key up in `a |= b`: `b` wins when it has the key
("last write wins").  Requires `b` to have pairwise-distinct keys, as every
Payload produced by the embedded operations does. -/
theorem getD_union (a b : Payload) (k : String) :
    (b.map Prod.fst).Nodup →
    getD (union a b) k = if hasKey b k then getD b k else getD a k := by
  induction b generalizing a with
  | nil => intro _; simp [union, hasKey, getD]
  | cons e rest ih =>
    intro hnd
    have hnd2 : (rest.map Prod.fst).Nodup := by
      simp only [List.map_cons, List.nodup_cons] at hnd
      exact hnd.2
    have hnotmem : e.1 ∉ rest.map Prod.fst := by
      simp only [List.map_cons, List.nodup_cons] at hnd
      exact hnd.1
    rw [union_cons, ih (setKey a e.1 e.2) hnd2, hasKey_cons, getD_cons, getD_setKey]
    by_cases he : e.1 = k
    · have hb : (e.1 == k) = true := by simp [he]
      have hrest : hasKey rest k = false := by
        rw [hasKey_eq_false_iff]
        intro x hx hxk
        exact hnotmem (by
          rw [he, ← hxk]
          exact List.mem_map_of_mem Prod.fst hx)
      simp [hb, hrest]
    · have hb : (e.1 == k) = false := by simp [he]
      simp [hb]

/-- The union loop of `ProcessJoined.__call__` computes, for every key, the
value from the highest-index branch containing that key — the spec-side
`lastWins`.  Requires the later branches to have pairwise-distinct keys. -/
theorem foldl_union_lastWins (t : List Payload) (h : Payload) (k : String) :
    (∀ d ∈ t, (d.map Prod.fst).Nodup) →
    getD (List.foldl union h t) k = lastWins (h :: t) k := by
  induction t generalizing h with
  | nil => intro _; simp [lastWins]
  | cons b t2 ih =>
    intro hnd
    have hb : (b.map Prod.fst).Nodup := hnd b (List.mem_cons_self b t2)
    have hnd2 : ∀ d ∈ t2, (d.map Prod.fst).Nodup :=
      fun d hd => hnd d (List.mem_cons_of_mem b hd)
    rw [List.foldl_cons, ih (union h b) hnd2]
    show lastWins (union h b :: t2) k = lastWins (h :: b :: t2) k
    rw [lastWins, lastWins]
    cases hany : t2.any (fun d => hasKey d k)
    · cases hbk : hasKey b k
      · have : (b :: t2).any (fun d => hasKey d k) = false := by
          simp only [List.any_cons, hany, hbk, Bool.or_false]
        rw [lastWins]
        simp only [this, hany, Bool.false_eq_true, if_false]
        rw [getD_union h b k hb, hbk]
        simp
      · have : (b :: t2).any (fun d => hasKey d k) = true := by
          simp only [List.any_cons, hbk, Bool.true_or]
        rw [lastWins]
        simp only [this, hany, Bool.false_eq_true, if_false, if_true]
        rw [getD_union h b k hb, hbk]
        simp
    · have : (b :: t2).any (fun d => hasKey d k) = true := by
        simp only [List.any_cons, hany, Bool.or_true]
      rw [lastWins]
      simp only [this, hany, if_true]

/-- Did the embedded operation succeed? -/
def exceptOk {A : Type} : Except PyError A → Bool
  | .ok _ => true
  | .error _ => false

theorem exceptOk_iff {A : Type} (x : Except PyError A) :
    exceptOk x = true ↔ ∃ a, x = .ok a := by
  cases x <;> simp [exceptOk]

theorem keys_setKey_of_hasKey (p : Payload) (k : String) (v : Value) :
    hasKey p k = true → (setKey p k v).map Prod.fst = p.map Prod.fst := by
  intro h
  simp only [setKey, h, if_true, List.map_map]
  apply List.map_congr_left
  intro e _
  by_cases he : e.1 = k
  · simp [Function.comp, he]
  · have hb : (e.1 == k) = false := by simp [he]
    simp [Function.comp, hb]

theorem nodup_keys_setKey (p : Payload) (k : String) (v : Value) :
    (p.map Prod.fst).Nodup → ((setKey p k v).map Prod.fst).Nodup := by
  intro h
  cases hk : hasKey p k
  · have hmem : k ∉ p.map Prod.fst := by
      intro hm
      obtain ⟨e, he, hek⟩ := List.mem_map.mp hm
      exact (hasKey_eq_false_iff p k).mp hk e he hek
    simp only [setKey, hk, Bool.false_eq_true, if_false, List.map_append,
      List.map_cons, List.map_nil]
    rw [List.nodup_append]
    exact ⟨h, List.nodup_singleton k, by
      intro a ha hb
      simp only [List.mem_singleton] at hb
      exact hmem (hb ▸ ha)⟩
  · rw [keys_setKey_of_hasKey p k v hk]
    exact h

theorem nodup_keys_filter (p : Payload) (f : String × Value → Bool) :
    (p.map Prod.fst).Nodup → ((p.filter f).map Prod.fst).Nodup := by
  intro h
  exact List.Nodup.sublist (List.Sublist.map Prod.fst (List.filter_sublist p)) h

theorem nodup_keys_renameKeys (names : List (String × String)) :
    ∀ (ret ret2 : Payload), (ret.map Prod.fst).Nodup →
    renameKeys ret names = .ok ret2 → (ret2.map Prod.fst).Nodup := by
  induction names with
  | nil =>
    intro ret ret2 h heq
    simp only [renameKeys] at heq
    cases heq
    exact h
  | cons pair rest ih =>
    intro ret ret2 h heq
    simp only [renameKeys] at heq
    cases hpop : popKey ret pair.1 with
    | error e => rw [hpop] at heq; cases heq
    | ok vp =>
      rw [hpop] at heq
      have hfil : vp.2 = ret.filter (fun e => e.1 != pair.1) := by
        simp only [popKey] at hpop
        cases hhk : hasKey ret pair.1 <;> rw [hhk] at hpop
        · cases hpop
        · simp at hpop
          rw [← hpop]
      have h2 : (vp.2.map Prod.fst).Nodup := by
        rw [hfil]
        exact nodup_keys_filter ret _ h
      exact ih (setKey vp.2 pair.2 vp.1) ret2 (nodup_keys_setKey _ _ _ h2) heq

/-- The rename phase of `ProcessJoined.__call__`, characterized pointwise:
when the table has pairwise-distinct, in-range branch indices and every
listed old key is present (so no entry raises), the loop succeeds, keeps
the tuple length, rewrites exactly the branches whose index is in the
table by the pop/insert renaming, and leaves every other branch unchanged.
Branches with pairwise-distinct keys keep pairwise-distinct keys. -/
theorem applyMapping_pointwise (m : RenameTable) :
    ∀ (ts : List Payload),
    (m.map Prod.fst).Nodup →
    (∀ e ∈ m, e.1 < ts.length) →
    (∀ e ∈ m, exceptOk (renameKeys (ts.getD e.1 []) e.2) = true) →
    (∀ d ∈ ts, (d.map Prod.fst).Nodup) →
    ∃ ts2, applyMapping ts m = .ok ts2 ∧ ts2.length = ts.length ∧
      (∀ d ∈ ts2, (d.map Prod.fst).Nodup) ∧
      (∀ j, j < ts.length →
        (match m.find? (fun e => e.1 == j) with
         | some e => renameKeys (ts.getD j []) e.2 = .ok (ts2.getD j [])
         | none => ts2.getD j [] = ts.getD j [])) := by
  induction m with
  | nil =>
    intro ts _ _ _ hnd
    exact ⟨ts, rfl, rfl, hnd, by intro j _; simp [List.find?]⟩
  | cons entry rest ih =>
    intro ts hnodup hrange hok hnd
    obtain ⟨i, names⟩ := entry
    have hi : i < ts.length := hrange (i, names) (List.mem_cons_self _ _)
    have hinotin : i ∉ rest.map Prod.fst := by
      simp only [List.map_cons, List.nodup_cons] at hnodup
      exact hnodup.1
    have hndrest : (rest.map Prod.fst).Nodup := by
      simp only [List.map_cons, List.nodup_cons] at hnodup
      exact hnodup.2
    obtain ⟨r, hr⟩ := (exceptOk_iff _).mp (hok (i, names) (List.mem_cons_self _ _))
    have hget : ts.get? i = some (ts.getD i []) := by
      rw [List.getD_eq_getElem?_getD, List.get?_eq_getElem?, List.getElem?_eq_getElem hi]
      rfl
    have hrn : (r.map Prod.fst).Nodup :=
      nodup_keys_renameKeys names (ts.getD i []) r
        (hnd (ts.getD i []) (by
          rw [List.getD_eq_getElem?_getD, List.getElem?_eq_getElem hi]
          exact List.getElem_mem hi)) hr
    have hset_len : (ts.set i r).length = ts.length := List.length_set ts i r
    have hset_other : ∀ j, j ≠ i → (ts.set i r).getD j [] = ts.getD j [] := by
      intro j hj
      rw [List.getD_eq_getElem?_getD, List.getD_eq_getElem?_getD,
        List.getElem?_set_ne (fun h => hj h.symm)]
    have hset_self : (ts.set i r).getD i [] = r := by
      rw [List.getD_eq_getElem?_getD, List.getElem?_set_self (by simpa using hi)]
      rfl
    have hnd2 : ∀ d ∈ ts.set i r, (d.map Prod.fst).Nodup := by
      intro d hd
      rcases List.mem_or_eq_of_mem_set hd with hmem | hde
      · exact hnd d hmem
      · rw [hde]; exact hrn
    have hrange2 : ∀ e ∈ rest, e.1 < (ts.set i r).length := by
      intro e he
      rw [hset_len]
      exact hrange e (List.mem_cons_of_mem _ he)
    have hne_rest : ∀ e ∈ rest, e.1 ≠ i := by
      intro e he hcontra
      exact hinotin (hcontra ▸ List.mem_map_of_mem Prod.fst he)
    have hok2 : ∀ e ∈ rest, exceptOk (renameKeys ((ts.set i r).getD e.1 []) e.2) = true := by
      intro e he
      rw [hset_other e.1 (hne_rest e he)]
      exact hok e (List.mem_cons_of_mem _ he)
    obtain ⟨ts2, heq, hlen, hnd3, hpt⟩ := ih (ts.set i r) hndrest hrange2 hok2 hnd2
    refine ⟨ts2, ?_, by rw [hlen, hset_len], hnd3, ?_⟩
    · simp only [applyMapping, hget, hr]
      exact heq
    · intro j hj
      by_cases hji : j = i
      · subst hji
        have hfind : rest.find? (fun e => e.1 == j) = none := by
          rw [List.find?_eq_none]
          intro e he
          simp only [beq_iff_eq]
          exact hne_rest e he
        have hfind2 : ((j, names) :: rest).find? (fun e => e.1 == j) = some (j, names) := by
          simp [List.find?_cons]
        rw [hfind2]
        have := hpt j (by rw [hset_len]; exact hj)
        rw [hfind] at this
        simp only at this
        show renameKeys (ts.getD j []) names = .ok (ts2.getD j [])
        rw [this, hset_self]
        exact hr
      · have hb : ((i, names).1 == j) = false := by
          simp only [beq_eq_false_iff_ne, ne_eq]
          exact fun h => hji h.symm
        have hfind2 : ((i, names) :: rest).find? (fun e => e.1 == j) =
            rest.find? (fun e => e.1 == j) := by
          rw [List.find?_cons, hb]
        rw [hfind2]
        have := hpt j (by rw [hset_len]; exact hj)
        cases hf : rest.find? (fun e => e.1 == j) with
        | none =>
          rw [hf] at this
          simp only at this
          show ts2.getD j [] = ts.getD j []
          rw [this, hset_other j hji]
        | some e =>
          rw [hf] at this
          simp only at this
          show renameKeys (ts.getD j []) e.2 = .ok (ts2.getD j [])
          rw [← hset_other j hji]
          exact this

/-!
## Claim theorems
-/

/-- C1: `Pipeline.invoke` threads an accumulator Payload seeded from the
call's keyword arguments through the stages in order, merging each stage's
returned Payload into the accumulator with the stage's keys winning; for
every Process A returning the single entry v = 1 and Process B returning
v = 2, invoking the chained pipeline A then B yields a Payload whose key v
maps to 2 (the later stage wins). -/
theorem c1_chain_merge_later_stage_wins (a b : StageFn)
    (ha : a.required = []) (hb : b.required = [])
    (hra : ∀ q, a.run q = [("v", Value.vint 1)])
    (hrb : ∀ q, b.run q = [("v", Value.vint 2)]) :
    rshift (.leaf a) (.leaf b) = .pipeline [.leaf a, .leaf b] ∧
    callProc (rshift (.leaf a) (.leaf b)) [] =
      .ok (.payload [("v", Value.vint 2)]) := by
  obtain ⟨na, ra, fa⟩ := a
  obtain ⟨nb, rb, fb⟩ := b
  simp only at ha hb hra hrb
  subst ha hb
  refine ⟨rfl, ?_⟩
  have e1 : callProc (rshift (.leaf ⟨na, [], fa⟩) (.leaf ⟨nb, [], fb⟩)) [] =
      .ok (.payload (union (union [] (fa []))
        (fb (union [] (fa []))))) := rfl
  rw [e1, hra, hrb]
  rfl

/-- Witness for C1 at two concrete processes. -/
theorem c1_chain_merge_later_stage_wins_witness :
    rshift (.leaf ⟨"A", [], fun _ => [("v", Value.vint 1)]⟩)
        (.leaf ⟨"B", [], fun _ => [("v", Value.vint 2)]⟩) =
      .pipeline [.leaf ⟨"A", [], fun _ => [("v", Value.vint 1)]⟩,
        .leaf ⟨"B", [], fun _ => [("v", Value.vint 2)]⟩] ∧
    callProc (rshift (.leaf ⟨"A", [], fun _ => [("v", Value.vint 1)]⟩)
        (.leaf ⟨"B", [], fun _ => [("v", Value.vint 2)]⟩)) [] =
      .ok (.payload [("v", Value.vint 2)]) :=
  c1_chain_merge_later_stage_wins _ _ rfl rfl (fun _ => rfl) (fun _ => rfl)

/-- C5: invoking a Fork evaluates every branch against the same input
Payload (each Python call receives its own fresh dict from `**kwargs`
unpacking, so branches cannot see each other's writes — automatic in this
pure embedding) and returns the ordered, index-aligned tuple of per-branch
outputs; for the 2-branch fork of A and B the result is exactly
(A invoked alone, B invoked alone). -/
theorem c5_fork_invocation (a b : StageFn) (p : Payload) (da db : Payload)
    (ha : callProc (.leaf a) p = .ok (.payload da))
    (hb : callProc (.leaf b) p = .ok (.payload db)) :
    callProc (.fork [.leaf a, .leaf b]) p = .ok (.tupleRes [da, db]) := by
  have h1 : callBranches [.leaf a, .leaf b] p = .ok [da, db] := by
    simp only [callBranches, ha, hb]
  have h2 : callProc (.fork [.leaf a, .leaf b]) p =
      (match callBranches [.leaf a, .leaf b] p with
        | .error e => .error e
        | .ok ds => .ok (.tupleRes ds)) := rfl
  rw [h2, h1]

/-- Witness for C5 at two concrete processes. -/
theorem c5_fork_invocation_witness :
    callProc (.fork [.leaf ⟨"A", [], fun _ => [("x", Value.vint 1)]⟩,
        .leaf ⟨"B", [], fun _ => [("y", Value.vint 2)]⟩]) [("z", Value.vint 0)] =
      .ok (.tupleRes [[("x", Value.vint 1)], [("y", Value.vint 2)]]) :=
  c5_fork_invocation _ _ _ _ _ rfl rfl

/-- C6: chaining is associative and flattening — for all Processes A, B, C
both associations produce the same flat 3-stage pipeline [A, B, C], never a
nested pipeline. -/
theorem c6_chain_associative (a b c : StageFn) :
    rshift (rshift (.leaf a) (.leaf b)) (.leaf c) =
      .pipeline [.leaf a, .leaf b, .leaf c] ∧
    rshift (.leaf a) (rshift (.leaf b) (.leaf c)) =
      .pipeline [.leaf a, .leaf b, .leaf c] :=
  ⟨rfl, rfl⟩

/-- C9: every `ImageProcessingPipeline()` constructed without an explicit
stage list holds the one shared mutable default list (a Python default
argument is evaluated once, at `def` time), so `append_process` through one
such pipeline makes the process appear in every other one, while a pipeline
holding its own list — as all pipelines built by the chain operators do —
is unaffected.  Both no-argument constructions are `defaultRef`; the third
conjunct runs the claim's scenario from the module-load heap: construct p1
and p2 with no arguments, append `x` through p1, and read p2's stages. -/
theorem c9_shared_default_stage_list (x : Proc) (h : PipelineHeap)
    (ps : List Proc) :
    stagesOf (append_process h .defaultRef x).1 .defaultRef =
      h.defaultList ++ [x] ∧
    stagesOf (append_process h .defaultRef x).1 (.ownRef ps) = ps ∧
    stagesOf (append_process initialHeap .defaultRef x).1 .defaultRef = [x] :=
  ⟨rfl, rfl, rfl⟩

/-- C10: indexing a Payload by an absent key returns `None` (the
`Dict.__missing__` override) instead of raising a key-absence error. -/
theorem c10_missing_key_returns_none (p : Payload) (k : String)
    (h : hasKey p k = false) : getD p k = Value.vnone := by
  unfold getD
  have hf : p.find? (fun e => e.1 == k) = none := by
    rw [List.find?_eq_none]
    intro e he
    simp only [beq_iff_eq]
    exact (hasKey_eq_false_iff p k).mp h e he
  rw [hf]

/-- Witness for C10 at a concrete payload and absent key. -/
theorem c10_missing_key_returns_none_witness :
    getD [("a", Value.vint 1)] "b" = Value.vnone :=
  c10_missing_key_returns_none _ _ (by decide)

/-- C2 counterexample: the claim as stated is false on the code in two
places.  (1) The first-stage marker in the source is the misspelled literal
"(input of the pipline)", not "(input of the pipeline)" (pipelines.py,
line 384).  (2) A stage failing because two required named parameters are
absent raises a CPython `TypeError` whose message ("missing 2 required
...") does not contain the matched "missing 1 required ..." substring, so
it propagates as a plain `TypeError` instead of the Incompatible-Payload
error. -/
theorem c2_counterexample :
    callProc (.pipeline [.leaf ⟨"P2", ["contour"],
        fun _ => [("result", Value.vstr "t2")]⟩]) [] =
      .error (.incompatibleArgs "P2" "(input of the pipline)") ∧
    "(input of the pipline)" ≠ "(input of the pipeline)" ∧
    callProc (.pipeline [.leaf ⟨"P0", ["a", "b"], fun _ => []⟩]) [] =
      .error (.typeError 2) :=
  ⟨rfl, by decide, rfl⟩

/-- C2 (amended): when a pipeline stage fails because exactly one required
named parameter is absent from the threaded accumulator, invocation raises
the Incompatible-Payload error naming the failing stage's type name and the
immediately preceding stage's type name, with the literal (misspelled)
marker "(input of the pipline)" when the failure occurs on the first
stage; a missing-parameters `TypeError` with two or more missing
parameters, and every other exception, propagates unmodified. -/
theorem c2_incompatible_payload_attribution :
    (∀ (s : StageFn) (rest : List Proc) (kwargs : Payload),
      (s.required.filter (fun k => !(hasKey kwargs k))).length = 1 →
      callProc (.pipeline (.leaf s :: rest)) kwargs =
        .error (.incompatibleArgs s.name pipelineInputMarker)) ∧
    (∀ (s1 s2 : StageFn) (kwargs r1 : Payload),
      callProc (.leaf s1) kwargs = .ok (.payload r1) →
      (s2.required.filter (fun k => !(hasKey (union kwargs r1) k))).length = 1 →
      callProc (.pipeline [.leaf s1, .leaf s2]) kwargs =
        .error (.incompatibleArgs s2.name s1.name)) ∧
    (∀ (x : Proc) (rest : List Proc) (prev : String) (acc : Payload)
      (e : PyError),
      callProc x acc = .error e → e ≠ .typeError 1 →
      runStages (x :: rest) prev acc = .error e) := by
  have hleaf : ∀ (s : StageFn) (kwargs : Payload),
      (s.required.filter (fun k => !(hasKey kwargs k))).length = 1 →
      callProc (.leaf s) kwargs = .error (.typeError 1) := by
    intro s kwargs hmiss
    simp [callProc, hmiss]
  refine ⟨?_, ?_, ?_⟩
  · intro s rest kwargs hmiss
    have h2 : runStages (.leaf s :: rest) pipelineInputMarker kwargs =
        .error (.incompatibleArgs s.name pipelineInputMarker) := by
      simp only [runStages, hleaf s kwargs hmiss, nameOf]
    show callProc (.pipeline (.leaf s :: rest)) kwargs = _
    simp only [callProc, h2]
  · intro s1 s2 kwargs r1 h1 hmiss
    have h2 : runStages [.leaf s1, .leaf s2] pipelineInputMarker kwargs =
        .error (.incompatibleArgs s2.name s1.name) := by
      simp only [runStages, h1, hleaf s2 (union kwargs r1) hmiss, nameOf]
    show callProc (.pipeline [.leaf s1, .leaf s2]) kwargs = _
    simp only [callProc, h2]
  · intro x rest prev acc e hcall hne
    simp only [runStages, hcall]

/-- Witness for the amended C2: the spec's own two-stage scenario (P1
requires image, P2 requires contour), a first-stage failure, and a
non-matching error propagating unmodified. -/
theorem c2_incompatible_payload_attribution_witness :
    callProc (.pipeline [.leaf ⟨"P1", ["image"],
          fun _ => [("image", Value.vnone), ("result", Value.vstr "t1")]⟩,
        .leaf ⟨"P2", ["contour"], fun _ => [("result", Value.vstr "t2")]⟩])
        [("image", Value.vnone)] =
      .error (.incompatibleArgs "P2" "P1") ∧
    callProc (.pipeline [.leaf ⟨"P2", ["contour"],
        fun _ => [("result", Value.vstr "t2")]⟩]) [] =
      .error (.incompatibleArgs "P2" pipelineInputMarker) ∧
    runStages [.leaf ⟨"Q", ["a", "b"], fun _ => []⟩] "Prev" [] =
      .error (.typeError 2) :=
  ⟨c2_incompatible_payload_attribution.2.1 _ _ _ _ rfl (by decide),
   c2_incompatible_payload_attribution.1 _ _ _ (by decide),
   c2_incompatible_payload_attribution.2.2 _ _ _ _ _ rfl (by decide)⟩

/-- C3 counterexample: forking a non-Fork Process by the integer 1 does not
return a Fork of one branch — `ProcessFork.__init__` asserts more than one
branch, so it raises an `AssertionError`; the claim's bound n >= 1 is
wrong on the code. -/
theorem c3_counterexample :
    mul (.leaf ⟨"A", [], fun q => q⟩) (.int 1) =
      .error (.assertionError "The processes must be more than one.") := rfl

/-- C3 (amended): for every Process or Pipeline A that is not already a
Fork and every integer n >= 2, forking A by n returns a Fork of n identical
branches; forking such an A by an integer n <= 1 fails the fork
constructor's more-than-one-branch assertion; if A is already a Fork,
forking it by any integer raises a construction error. -/
theorem c3_fork_by_int (A : Proc) :
    (∀ n : Int, isFork A = false → 2 ≤ n →
      mul A (.int n) = .ok (.fork (List.replicate n.toNat A))) ∧
    (∀ n : Int, isFork A = false → n ≤ 1 →
      mul A (.int n) =
        .error (.assertionError "The processes must be more than one.")) ∧
    (∀ n : Int, isFork A = true →
      mul A (.int n) =
        .error (.valueError
          "The ProcessFork has already forked (cannot be multiplied).")) := by
  refine ⟨?_, ?_, ?_⟩
  · intro n hA hn
    cases A with
    | fork bs => simp [isFork] at hA
    | leaf s =>
      simp only [mul, mkFork, List.length_replicate]
      rw [if_pos (by omega)]
    | joined f m =>
      simp only [mul, mkFork, List.length_replicate]
      rw [if_pos (by omega)]
    | pipeline ps =>
      simp only [mul, mkFork, List.length_replicate]
      rw [if_pos (by omega)]
  · intro n hA hn
    cases A with
    | fork bs => simp [isFork] at hA
    | leaf s =>
      simp only [mul, mkFork, List.length_replicate]
      rw [if_neg (by omega)]
    | joined f m =>
      simp only [mul, mkFork, List.length_replicate]
      rw [if_neg (by omega)]
    | pipeline ps =>
      simp only [mul, mkFork, List.length_replicate]
      rw [if_neg (by omega)]
  · intro n hA
    cases A with
    | fork bs => rfl
    | leaf s => simp [isFork] at hA
    | joined f m => simp [isFork] at hA
    | pipeline ps => simp [isFork] at hA

/-- Witness for the amended C3 at concrete operands. -/
theorem c3_fork_by_int_witness :
    mul (.leaf ⟨"A", [], fun q => q⟩) (.int 3) =
      .ok (.fork (List.replicate 3 (.leaf ⟨"A", [], fun q => q⟩))) ∧
    mul (.pipeline []) (.int 0) =
      .error (.assertionError "The processes must be more than one.") ∧
    mul (.fork [.leaf ⟨"A", [], fun q => q⟩, .leaf ⟨"B", [], fun q => q⟩])
        (.int 5) =
      .error (.valueError
        "The ProcessFork has already forked (cannot be multiplied).") :=
  ⟨(c3_fork_by_int _).1 3 rfl (by omega),
   (c3_fork_by_int _).2.1 0 rfl (by omega),
   (c3_fork_by_int _).2.2 5 rfl⟩

/-- C7 counterexample: the claim that the Logic-Property binding is
resolved once per owning instance is false on the code.  The decorator
creates one shared `ProcessLogicProperty` object per decorated method, and
every attribute access overwrites its `caller_class` and returns that same
object.  Concretely: with a callback that reveals its bound owner, access
the property on owner 1 and then on owner 2 — both accesses return the one
shared object, whose state after the two accesses is
`accessLogicProperty (accessLogicProperty ... 1) 2` — and invoke the
Process obtained from the *first* access: it runs the wrapped method with
owner 2, not with its own owner 1. -/
theorem c7_counterexample :
    invokeLogicProperty
      (accessLogicProperty
        (accessLogicProperty
          (mkLogicProperty (fun o _ =>
            [("owner", match o with
              | some n => Value.vint n
              | none => Value.vnone)]))
          (1 : Int))
        2) [] = [("owner", Value.vint 2)] ∧
    ([("owner", Value.vint 2)] : Payload) ≠ [("owner", Value.vint 1)] :=
  ⟨rfl, by decide⟩

/-- C7 (amended): the Logic-Property adapter defers binding until attribute
access, but the binding lives on a single shared Process object and is
re-resolved (overwritten) on every access, not once per owning instance:
at decoration time the stored owner is `None`; each access stores the
accessing owner and leaves the callback unchanged, so invoking the shared
Process runs the wrapped method with the most recently accessing owner. -/
theorem c7_binding_overwritten_on_each_access {Owner : Type}
    (cb : Option Owner → Payload → Payload)
    (s : ProcessLogicPropertyState Owner) (o : Owner) (p : Payload) :
    (mkLogicProperty cb).caller_class = none ∧
    (accessLogicProperty s o).caller_class = some o ∧
    (accessLogicProperty s o).logic_callback = s.logic_callback ∧
    invokeLogicProperty (accessLogicProperty s o) p =
      s.logic_callback (some o) p :=
  ⟨rfl, rfl, rfl, rfl⟩

/-- C8: forking with a Fork as the right operand is asymmetric in the left
operand's kind: a bare Process on the left yields a flattened Fork whose
branch list is the Process followed by the right Fork's branches, a Fork on
the left concatenates the two branch lists, and a Pipeline on the left
raises a construction error.  The length hypotheses are the Fork invariant
(a constructed `ProcessFork` always has more than one branch). -/
theorem c8_fork_rhs_asymmetry (s : StageFn) (sbs obs ps : List Proc)
    (hobs : 2 ≤ obs.length) (hsbs : 2 ≤ sbs.length) :
    mul (.leaf s) (.proc (.fork obs)) = .ok (.fork (.leaf s :: obs)) ∧
    mul (.fork sbs) (.proc (.fork obs)) = .ok (.fork (sbs ++ obs)) ∧
    mul (.pipeline ps) (.proc (.fork obs)) =
      .error (.valueError
        "ProcessFork cannot be multiplied from LHS of a ImageProcessingPipeline.") := by
  refine ⟨?_, ?_, rfl⟩
  · simp only [mul, mkFork, List.length_cons]
    rw [if_pos (by omega)]
  · simp only [mul, mkFork, List.length_append]
    rw [if_pos (by omega)]

/-- Witness for C8 at concrete operands. -/
theorem c8_fork_rhs_asymmetry_witness :
    mul (.leaf ⟨"A", [], fun q => q⟩)
        (.proc (.fork [.leaf ⟨"B", [], fun q => q⟩,
          .leaf ⟨"C", [], fun q => q⟩])) =
      .ok (.fork [.leaf ⟨"A", [], fun q => q⟩, .leaf ⟨"B", [], fun q => q⟩,
        .leaf ⟨"C", [], fun q => q⟩]) ∧
    mul (.fork [.leaf ⟨"A", [], fun q => q⟩, .leaf ⟨"D", [], fun q => q⟩])
        (.proc (.fork [.leaf ⟨"B", [], fun q => q⟩,
          .leaf ⟨"C", [], fun q => q⟩])) =
      .ok (.fork [.leaf ⟨"A", [], fun q => q⟩, .leaf ⟨"D", [], fun q => q⟩,
        .leaf ⟨"B", [], fun q => q⟩, .leaf ⟨"C", [], fun q => q⟩]) ∧
    mul (.pipeline [.leaf ⟨"A", [], fun q => q⟩])
        (.proc (.fork [.leaf ⟨"B", [], fun q => q⟩,
          .leaf ⟨"C", [], fun q => q⟩])) =
      .error (.valueError
        "ProcessFork cannot be multiplied from LHS of a ImageProcessingPipeline.") :=
  c8_fork_rhs_asymmetry _ _ _ _ (by decide) (by decide)

/-- C4: invoking a Joined first applies the rename table — for each branch
index present, each (old key, new key) pair is popped from that branch's
output Payload and inserted under the new key (erroring if the old key is
absent; the `exceptOk` hypothesis excludes that error case so that the
success path can be characterized) — leaving every branch without a table
entry unchanged, and then reduces the renamed branch outputs into one
Payload by left-to-right union in which a later branch's keys override an
earlier branch's on conflict: every key of the result carries the value
from the highest-index renamed branch containing it (the spec-side
`lastWins`).  The hypotheses are the well-formedness guarantees of the
source: table indices are keys of a Python dict (pairwise distinct), the
`/` operator and the fork invariant keep them within the branch tuple, and
branch outputs are Python dicts (pairwise-distinct keys, at least two
branches). -/
theorem c4_joined_rename_then_union (f : Proc) (m : RenameTable)
    (p : Payload) (ts : List Payload)
    (hcall : callProc f p = .ok (.tupleRes ts))
    (hnodup : (m.map Prod.fst).Nodup)
    (hrange : ∀ e ∈ m, e.1 < ts.length)
    (hok : ∀ e ∈ m, exceptOk (renameKeys (ts.getD e.1 []) e.2) = true)
    (hnd : ∀ d ∈ ts, (d.map Prod.fst).Nodup)
    (hne : ts ≠ []) :
    ∃ ts2 d, applyMapping ts m = .ok ts2 ∧
      ts2.length = ts.length ∧
      (∀ j, j < ts.length →
        (match m.find? (fun e => e.1 == j) with
         | some e => renameKeys (ts.getD j []) e.2 = .ok (ts2.getD j [])
         | none => ts2.getD j [] = ts.getD j [])) ∧
      reduceUnion ts2 = .ok d ∧
      callProc (.joined f m) p = .ok (.payload d) ∧
      (∀ k, getD d k = lastWins ts2 k) := by
  obtain ⟨ts2, happ, hlen, hnd2, hpt⟩ :=
    applyMapping_pointwise m ts hnodup hrange hok hnd
  have hne2 : ts2 ≠ [] := by
    intro hcon
    rw [hcon] at hlen
    exact hne (List.eq_nil_of_length_eq_zero hlen.symm)
  obtain ⟨h0, t0, rfl⟩ := List.exists_cons_of_ne_nil hne2
  refine ⟨h0 :: t0, t0.foldl union h0, happ, hlen, hpt, rfl, ?_, ?_⟩
  · have hj : callProc (.joined f m) p =
        (match callProc f p with
          | .error e => .error e
          | .ok (.payload _) => .error .otherError
          | .ok (.tupleRes ts) =>
            match applyMapping ts m with
            | .error e => .error e
            | .ok ts2 =>
              match reduceUnion ts2 with
              | .error e => .error e
              | .ok d => .ok (.payload d)) := rfl
    rw [hj, hcall]
    simp only
    rw [happ]
    rfl
  · intro k
    exact foldl_union_lastWins t0 h0 k
      (fun d hd => hnd2 d (List.mem_cons_of_mem h0 hd))

/-- Witness for C4: the spec's own fork-plus-rename scenario — two branches
each returning result = "x", renamed to r1 and r2. -/
theorem c4_joined_rename_then_union_witness :
    ∃ ts2 d,
      applyMapping [[("result", Value.vstr "x")], [("result", Value.vstr "x")]]
          [(0, [("result", "r1")]), (1, [("result", "r2")])] = .ok ts2 ∧
      ts2.length =
        [[("result", Value.vstr "x")], [("result", Value.vstr "x")]].length ∧
      (∀ j, j < [[("result", Value.vstr "x")],
          [("result", Value.vstr "x")]].length →
        (match [(0, [("result", "r1")]), (1, [("result", "r2")])].find?
            (fun e => e.1 == j) with
         | some e =>
           renameKeys ([[("result", Value.vstr "x")],
             [("result", Value.vstr "x")]].getD j []) e.2 = .ok (ts2.getD j [])
         | none =>
           ts2.getD j [] = [[("result", Value.vstr "x")],
             [("result", Value.vstr "x")]].getD j [])) ∧
      reduceUnion ts2 = .ok d ∧
      callProc (.joined (.fork [.leaf ⟨"A", [], fun _ => [("result", Value.vstr "x")]⟩,
          .leaf ⟨"B", [], fun _ => [("result", Value.vstr "x")]⟩])
          [(0, [("result", "r1")]), (1, [("result", "r2")])]) [] =
        .ok (.payload d) ∧
      (∀ k, getD d k = lastWins ts2 k) :=
  c4_joined_rename_then_union _ _ _ _ rfl (by decide) (by decide) (by decide)
    (by decide) (by decide)

end MOSF
